import Mathlib

/-!
Verification of the hierarchical row store, visibility projection and
presentation-sync logic of the PySide table demos (tableview_demo02,
tableview_demo02_lazy_loading, tableview_demo02_performance,
tableview_demo04, tableview_demo05 and the optimized variants).

The Python row dictionaries are embedded as a `Row` structure; the
`expanded_rows` Python set becomes a `Finset String`; list mutations
(insertRow / removeRow on the Qt table, list.insert on the data list)
become explicit functions on `List Row`.
-/

namespace Demo

/-- Row type tag: the `type` field of the Python row dictionaries,
one of `parent`, `child`, `normal`. -/
inductive RowKind where
  | parent
  | child
  | normal
  deriving DecidableEq, Repr

/-- A cell value as stored in the `data` arrays of the demos:
either a string or a boolean. -/
inductive CellVal where
  | s (v : String)
  | b (v : Bool)
  deriving DecidableEq, Repr

/-- One row record of the hierarchical row store: the `name`, `type`,
`parent` and `data` keys of the Python dictionaries.  `parent` is only
meaningful when `kind = RowKind.child` (the Python dicts omit the key
otherwise; we default it to the empty string). -/
structure Row where
  name : String
  kind : RowKind
  parent : String := ""
  data : List CellVal := []
  deriving DecidableEq, Repr

/-- The `expanded_rows` set of the widgets: the set of currently
expanded parent names. -/
abbrev ExpansionSet := Finset String

/-- A row is top level when it is a parent or a normal row
(`item['type'] == 'parent' or item['type'] == 'normal'`). -/
def is_top_level (r : Row) : Bool :=
  decide (r.kind = RowKind.parent) || decide (r.kind = RowKind.normal)

/-- The visibility filter of `ExpandableTableWidget.refresh_table`
(tableview_demo02.py, lines 177-184): a row is kept when it is a parent
or normal row, or a child row whose parent name is expanded. -/
def row_visible (expanded_rows : ExpansionSet) (item : Row) : Bool :=
  is_top_level item ||
    (decide (item.kind = RowKind.child) && decide (item.parent ∈ expanded_rows))

/-- The `visible_rows` list built by `refresh_table` /
`on_cell_clicked` in tableview_demo02.py: iterate `all_data` in stored
order and keep parents, normals, and children of expanded parents. -/
def visible_rows (all_data : List Row) (expanded_rows : ExpansionSet) : List Row :=
  all_data.filter (row_visible expanded_rows)

/-- The child rows of a given parent name, in stored order: the
`[item for item in self.all_data if item['type'] == 'child' and
item.get('parent') == parent_name]` comprehension used throughout the
lazy-loading and performance variants. -/
def child_items_of (all_data : List Row) (parent_name : String) : List Row :=
  all_data.filter
    (fun c => decide (c.kind = RowKind.child) && decide (c.parent = parent_name))

/-- Inner loop of `LazyLoadingTableWidget.refresh_visible_items`
(tableview_demo02_lazy_loading.py, lines 117-133) over a suffix of the
data list: each parent row is appended, immediately followed by all of
its children (scanned from the full `all_data`) when it is expanded. -/
def refresh_visible_items_aux (all_data : List Row) (expanded_rows : ExpansionSet) :
    List Row → List Row
  | [] => []
  | item :: rest =>
    if decide (item.kind = RowKind.parent) then
      item ::
        ((if decide (item.name ∈ expanded_rows) then child_items_of all_data item.name
          else []) ++
          refresh_visible_items_aux all_data expanded_rows rest)
    else
      refresh_visible_items_aux all_data expanded_rows rest

/-- `LazyLoadingTableWidget.refresh_visible_items`: the gather-style
projection used by the lazy-loading and performance widgets. -/
def refresh_visible_items (all_data : List Row) (expanded_rows : ExpansionSet) : List Row :=
  refresh_visible_items_aux all_data expanded_rows all_data

/-- The parent-reference invariant of the data model: every child row
names an existing parent row. -/
def parent_ref_invariant (all_data : List Row) : Prop :=
  ∀ c ∈ all_data, c.kind = RowKind.child →
    ∃ r ∈ all_data, r.kind = RowKind.parent ∧ r.name = c.parent

instance (all_data : List Row) : Decidable (parent_ref_invariant all_data) := by
  unfold parent_ref_invariant; infer_instance

/-- `startsWithRows b l` holds when `b` is a prefix of `l`. -/
def startsWithRows : List Row → List Row → Bool
  | [], _ => true
  | _ :: _, [] => false
  | b :: bs, x :: xs => decide (b = x) && startsWithRows bs xs

/-- `containsBlock b l` holds when `b` occurs in `l` as a contiguous
sub-sequence. -/
def containsBlock (block : List Row) : List Row → Bool
  | [] => block.isEmpty
  | x :: xs => startsWithRows block (x :: xs) || containsBlock block xs

/-- Statement of claim C1 for a given store and expansion set, about
the projection computed by `refresh_table`: every parent and normal row
appears exactly once in stored order, each child row appears exactly
once iff its parent is expanded, and each expanded parent is
immediately followed by its child block. -/
def projection_ok (all_data : List Row) (E : ExpansionSet) : Prop :=
  ((visible_rows all_data E).filter is_top_level = all_data.filter is_top_level) ∧
  (∀ c ∈ all_data, c.kind = RowKind.child →
    (visible_rows all_data E).count c = (if c.parent ∈ E then 1 else 0)) ∧
  (∀ r ∈ all_data, r.kind = RowKind.parent → r.name ∈ E →
    containsBlock (r :: child_items_of all_data r.name) (visible_rows all_data E) = true)

instance (all_data : List Row) (E : ExpansionSet) : Decidable (projection_ok all_data E) := by
  unfold projection_ok; infer_instance

/-- A parent block of the store layout: a head row followed by the rows
attached to it.  Used to state the amended form of claim C1. -/
structure Block where
  head : Row
  children : List Row
  deriving DecidableEq, Repr

/-- A block is well formed when its head is a parent row and every
attached row is a child referencing it, or its head is a normal row
with no attached rows. -/
def block_wf (b : Block) : Prop :=
  (b.head.kind = RowKind.parent ∧
    ∀ c ∈ b.children, c.kind = RowKind.child ∧ c.parent = b.head.name) ∨
  (b.head.kind = RowKind.normal ∧ b.children = [])

instance (b : Block) : Decidable (block_wf b) := by
  unfold block_wf; infer_instance

/-- Flatten a block list into a row store: each head immediately
followed by its children. -/
def flatten_blocks : List Block → List Row
  | [] => []
  | b :: bs => b.head :: (b.children ++ flatten_blocks bs)

/-- Python `list.insert(pos, c)` / Qt `insertRow(pos)`: insert at
`pos`, appending when `pos` is past the end. -/
def insertAt {α : Type} : Nat → α → List α → List α
  | 0, c, l => c :: l
  | _ + 1, c, [] => [c]
  | pos + 1, c, x :: xs => x :: insertAt pos c xs

/-- Qt `removeRow(pos)`: drop the element at `pos`, a no-op when `pos`
is out of range. -/
def removeAt {α : Type} : Nat → List α → List α
  | _, [] => []
  | 0, _ :: xs => xs
  | pos + 1, x :: xs => x :: removeAt pos xs

/-- Expand branch of `LazyLoadingTableWidget.update_table_incrementally`
(tableview_demo02_lazy_loading.py, lines 458-466): insert the child
rows one by one at increasing positions `pos, pos+1, ...`. -/
def insert_child_rows (pos : Nat) (children : List Row) (table : List Row) : List Row :=
  match children with
  | [] => table
  | c :: cs => insert_child_rows (pos + 1) cs (insertAt pos c table)

/-- Collapse branch (lines 474-481): `child_count` iterations of
`removeRow(pos)`, each guarded by `pos < rowCount`. -/
def remove_child_rows (pos : Nat) (child_count : Nat) (table : List Row) : List Row :=
  match child_count with
  | 0 => table
  | k + 1 =>
    if pos < table.length then remove_child_rows pos k (removeAt pos table)
    else remove_child_rows pos k table

/-- Flip membership of `parent_name` in `expanded_rows`: the
`if parent_name in self.expanded_rows: remove(...) else: add(...)`
pattern shared by every widget variant. -/
def toggle_expansion (expanded_rows : ExpansionSet) (parent_name : String) : ExpansionSet :=
  if parent_name ∈ expanded_rows then expanded_rows.erase parent_name
  else insert parent_name expanded_rows

/-- Effect of `LazyLoadingTableWidget.update_table_incrementally`
(lines 429-503) on the displayed row sequence; `expanded_rows` is the
set after the flip performed by `on_cell_clicked`. -/
def update_table_incrementally (all_data : List Row) (expanded_rows : ExpansionSet)
    (parent_name : String) (parent_row : Nat) (table : List Row) : List Row :=
  if parent_name ∈ expanded_rows then
    insert_child_rows (parent_row + 1) (child_items_of all_data parent_name) table
  else
    remove_child_rows (parent_row + 1) (child_items_of all_data parent_name).length table

/-- `PerformanceTableWidget.clear_cache_after_row`
(tablewidget/tableview_demo02_performance.py, lines 258-262): delete
every cache entry whose row key is strictly greater than `row`. -/
def clear_cache_after_row {W : Type} (widget_cache : List (Nat × W)) (row : Nat) :
    List (Nat × W) :=
  widget_cache.filter (fun e => !(decide (e.1 > row)))

/-- First-match association lookup on the widget cache. -/
def cacheLookup {W : Type} (r : Nat) : List (Nat × W) → Option W
  | [] => none
  | e :: rest => if e.1 = r then some e.2 else cacheLookup r rest

/-- One cell of `TableModel.table_data` (tableview_demo.py): a string
or an integer. -/
inductive DataCell where
  | s (v : String)
  | i (v : Int)
  deriving DecidableEq, Repr

/-- Decimal digit run: `none` when empty or when a non-digit occurs. -/
def digitsVal? (cs : List Char) : Option Nat :=
  if cs.isEmpty then none
  else
    cs.foldl
      (fun acc c =>
        match acc with
        | none => none
        | some n => if c.isDigit then some (n * 10 + (c.toNat - 48)) else none)
      (some 0)

/-- Model of Python `int(value)` on a string: an optional sign followed
by decimal digits; `none` (a `ValueError`) otherwise. -/
def pyInt? (value : String) : Option Int :=
  match value.toList with
  | '-' :: rest => (digitsVal? rest).map (fun n => -(n : Int))
  | '+' :: rest => (digitsVal? rest).map (fun n => (n : Int))
  | cs => (digitsVal? cs).map (fun n => (n : Int))

/-- Write one cell of the table data. -/
def setCell (table_data : List (List DataCell)) (row col : Nat) (cell : DataCell) :
    List (List DataCell) :=
  table_data.set row ((table_data.getD row []).set col cell)

/-- `TableModel.setData` (tableview_demo.py, lines 68-83): an invalid
index rejects; the age (1) and salary (4) columns convert the text with
`int(value)`, rejecting the edit on `ValueError`; otherwise the cell is
written and the edit succeeds.  Returns the success flag and the new
table data. -/
def setData (table_data : List (List DataCell)) (row col : Nat) (value : String) :
    Bool × List (List DataCell) :=
  if row < table_data.length ∧ col < 5 then
    if col = 1 ∨ col = 4 then
      match pyInt? value with
      | none => (false, table_data)
      | some n => (true, setCell table_data row col (DataCell.i n))
    else (true, setCell table_data row col (DataCell.s value))
  else (false, table_data)

/-- A display row of `TreeTableWidget` (tablewidget/tableview_demo04.py):
name, type and description cells. -/
structure Row3 where
  name : String
  type_val : String
  desc : String
  deriving DecidableEq, Repr

/-- State of `TreeTableWidget`: the table rows, the recorded parent row
indices, and the parent-index to child-indices mapping. -/
structure TreeTableState where
  rows : List Row3
  parent_rows : List Nat
  child_rows : List (Nat × List Nat)
  deriving DecidableEq, Repr

/-- Index shift applied by `update_indices_after_insert`: indices at or
after the insertion point move down by one. -/
def shiftIdx (insert_position : Nat) (i : Nat) : Nat :=
  if i ≥ insert_position then i + 1 else i

/-- Ascending insertion used to model Python `list.sort()`. -/
def insertSorted (x : Nat) : List Nat → List Nat
  | [] => [x]
  | y :: ys => if x ≤ y then x :: y :: ys else y :: insertSorted x ys

/-- Python `list.sort()` on a list of indices. -/
def sortNat : List Nat → List Nat
  | [] => []
  | x :: xs => insertSorted x (sortNat xs)

/-- `TreeTableWidget.update_indices_after_insert` (lines 182-226):
shift all recorded indices past the insertion point; a new parent gets
an empty child list; a new child is appended to its (shifted) parent's
child list when that parent is registered, and is silently dropped
from the mapping otherwise. -/
def update_indices_after_insert (s : TreeTableState) (insert_position : Nat)
    (is_parent : Bool) (parent_idx : Int) : TreeTableState :=
  let shifted_parent_rows := s.parent_rows.map (shiftIdx insert_position)
  let updated_parent_rows :=
    if is_parent then sortNat (shifted_parent_rows ++ [insert_position])
    else shifted_parent_rows
  let shifted_child_rows :=
    s.child_rows.map (fun e =>
      (shiftIdx insert_position e.1, e.2.map (shiftIdx insert_position)))
  let updated_child_rows :=
    if is_parent then shifted_child_rows ++ [(insert_position, [])]
    else if parent_idx ≠ -1 then
      let updated_parent_idx : Int :=
        if parent_idx ≥ (insert_position : Int) then parent_idx + 1 else parent_idx
      shifted_child_rows.map (fun e =>
        if (e.1 : Int) = updated_parent_idx then
          (e.1, sortNat (e.2 ++ [insert_position]))
        else e)
    else shifted_child_rows
  { s with parent_rows := updated_parent_rows, child_rows := updated_child_rows }

/-- `TreeTableWidget.insert_row_at` (lines 156-180): insert the new row
at `position`, then update the recorded indices. -/
def insert_row_at (s : TreeTableState) (position : Nat) (name type_val desc : String)
    (is_parent : Bool) (parent_idx : Int) : TreeTableState :=
  let s2 := { s with rows := insertAt position (Row3.mk name type_val desc) s.rows }
  update_indices_after_insert s2 position is_parent parent_idx

/-- `parent_named p r` holds when `r` is a parent row named `p`; used
to locate the toggled parent inside the store and the projection. -/
def parent_named (p : String) (r : Row) : Bool :=
  decide (r.kind = RowKind.parent) && decide (r.name = p)

/-- `ContextMenuTableWidget.delete_parent_item` (tableview_demo05.py,
lines 531-553), after the user confirms: drop the record named
`parent_name` and every child referencing it, and discard the name
from `expanded_rows`. -/
def delete_parent_item (all_data : List Row) (expanded_rows : ExpansionSet)
    (parent_name : String) : List Row × ExpansionSet :=
  (all_data.filter (fun item =>
      !(decide (item.name = parent_name) ||
        (decide (item.kind = RowKind.child) && decide (item.parent = parent_name)))),
   expanded_rows.erase parent_name)

/-- `ExpandableTableWidget.on_cell_clicked` (tableview_demo02.py, lines
330-361): a click on column 0 re-derives the visible rows and, when
the clicked row is a parent, flips its expansion state; any other
click leaves the state alone.  Returns the (untouched) data list and
the new expansion set. -/
def on_cell_clicked (all_data : List Row) (expanded_rows : ExpansionSet)
    (row column : Nat) : List Row × ExpansionSet :=
  if column = 0 then
    match (visible_rows all_data expanded_rows)[row]? with
    | some clicked_item =>
      if clicked_item.kind = RowKind.parent then
        (all_data, toggle_expansion expanded_rows clicked_item.name)
      else (all_data, expanded_rows)
    | none => (all_data, expanded_rows)
  else (all_data, expanded_rows)

/-- Presentation state of `LazyLoadingTableWidget`: the visible items,
the Qt row count, the set of promoted rows (`widgets_created`) and the
set of cells currently holding full interactive widgets. -/
structure LazyTableState where
  visible_items : List Row
  row_count : Nat
  widgets_created : Finset Nat
  cell_widgets : Finset (Nat × Nat)
  deriving DecidableEq

/-- The cells receiving full widgets when a row is promoted: columns
1 through 8. -/
def full_widget_cells (row : Nat) : Finset (Nat × Nat) :=
  {(row, 1), (row, 2), (row, 3), (row, 4), (row, 5), (row, 6), (row, 7), (row, 8)}

/-- `LazyLoadingTableWidget.create_full_widgets_for_row`
(tableview_demo02_lazy_loading.py, lines 210-260): skip when the row is
out of range or already promoted; otherwise install the full widgets
for columns 1-8 and record the row in `widgets_created`.  (The Python
`row < 0` guard is vacuous over `Nat`.) -/
def create_full_widgets_for_row (s : LazyTableState) (row : Nat) : LazyTableState :=
  if row ≥ s.visible_items.length ∨ row ≥ s.row_count ∨ row ∈ s.widgets_created then s
  else
    { s with
      cell_widgets := s.cell_widgets ∪ full_widget_cells row,
      widgets_created := insert row s.widgets_created }

/-- Combined store state for the operation sequences of claim C9. -/
structure StoreState where
  all_data : List Row
  expanded_rows : ExpansionSet
  deriving DecidableEq

/-- The `for i, item in enumerate(self.all_data): if parent and name:
parent_index = i; break` scan of `add_child_item`. -/
def find_parent_index (parent_name : String) : List Row → Option Nat
  | [] => none
  | item :: rest =>
    if item.kind = RowKind.parent ∧ item.name = parent_name then some 0
    else (find_parent_index parent_name rest).map (· + 1)

/-- The scan of `add_child_item` (tableview_demo05.py, lines 506-513)
locating the insertion slot relative to the position after the parent:
remember the slot one past the last child of `parent_name`, stop at the
next parent row, skip anything else. -/
def child_insert_offset (parent_name : String) : List Row → Nat → Nat → Nat
  | [], _, acc => acc
  | item :: rest, i, acc =>
    if item.kind = RowKind.child ∧ item.parent = parent_name then
      child_insert_offset parent_name rest (i + 1) (i + 1)
    else if item.kind = RowKind.parent then acc
    else child_insert_offset parent_name rest (i + 1) acc

/-- `ContextMenuTableWidget.add_child_item` (tableview_demo05.py, lines
479-521): build a fresh child record, locate the parent; when found,
insert the child after the parent's existing children and force the
parent expanded; when the parent is missing, do nothing. -/
def add_child_item (s : StoreState) (parent_name : String) : StoreState :=
  let child_count := (child_items_of s.all_data parent_name).length
  let new_child : Row :=
    { name := "新配置项" ++ toString (child_count + 1), kind := RowKind.child,
      parent := parent_name,
      data := [CellVal.s ("  └ 新配置项" ++ toString (child_count + 1)),
               CellVal.s "字符串", CellVal.s "默认值", CellVal.s "新添加的配置项"] }
  match find_parent_index parent_name s.all_data with
  | some parent_index =>
    let insert_index := parent_index + 1 +
      child_insert_offset parent_name (s.all_data.drop (parent_index + 1)) 0 0
    { all_data := insertAt insert_index new_child s.all_data,
      expanded_rows := insert parent_name s.expanded_rows }
  | none => s

/-- The operations of claim C9: toggle by cell click, cascade parent
deletion, add-child with auto-expand. -/
inductive StoreOp where
  | click (row column : Nat)
  | deleteParent (parent_name : String)
  | addChild (parent_name : String)

/-- One step of the combined store state machine. -/
def store_step (s : StoreState) : StoreOp → StoreState
  | StoreOp.click row column =>
    let r := on_cell_clicked s.all_data s.expanded_rows row column
    { all_data := r.1, expanded_rows := r.2 }
  | StoreOp.deleteParent parent_name =>
    let r := delete_parent_item s.all_data s.expanded_rows parent_name
    { all_data := r.1, expanded_rows := r.2 }
  | StoreOp.addChild parent_name => add_child_item s parent_name

/-- Run a sequence of operations. -/
def run_ops (s : StoreState) (ops : List StoreOp) : StoreState :=
  ops.foldl store_step s

/-- The implicit invariant of claim C9: every expanded name is the name
of a parent row currently present in the store. -/
def expanded_inv (s : StoreState) : Prop :=
  ∀ q ∈ s.expanded_rows, ∃ r ∈ s.all_data, r.kind = RowKind.parent ∧ r.name = q

instance (s : StoreState) : Decidable (expanded_inv s) := by
  unfold expanded_inv; infer_instance

/-- `LazyLoadingTableWidget.on_line_edit_changed` (lines 532-547):
write the new text into the backing data when the row index is in
range, do nothing otherwise. -/
def on_line_edit_changed (visible_items : List Row) (row column : Nat) (text : String) :
    List Row :=
  if h : row < visible_items.length then
    visible_items.set row
      { visible_items[row] with
        data := visible_items[row].data.set column (CellVal.s text) }
  else visible_items

/-- `OptimizedExpandableTableWidget.on_checkbox_changed`
(tableview_demo02_optimized.py, lines 323-326): store `bool(state)`
when the row index is in range. -/
def on_checkbox_changed (visible_items : List Row) (row column : Nat) (state : Int) :
    List Row :=
  if h : row < visible_items.length then
    visible_items.set row
      { visible_items[row] with
        data := visible_items[row].data.set column (CellVal.b (decide (state ≠ 0))) }
  else visible_items

/-- `on_combo_changed`: store the selected text when the row index is
in range. -/
def on_combo_changed (visible_items : List Row) (row column : Nat) (text : String) :
    List Row :=
  if h : row < visible_items.length then
    visible_items.set row
      { visible_items[row] with
        data := visible_items[row].data.set column (CellVal.s text) }
  else visible_items

/-- Scenario data: parent row P1. -/
def sampleP1 : Row := { name := "P1", kind := RowKind.parent }

/-- Scenario data: child c1 of P1. -/
def sampleC1 : Row := { name := "c1", kind := RowKind.child, parent := "P1" }

/-- Scenario data: child c2 of P1. -/
def sampleC2 : Row := { name := "c2", kind := RowKind.child, parent := "P1" }

/-- Scenario data: normal row N1. -/
def sampleN1 : Row := { name := "N1", kind := RowKind.normal }

/-- Scenario data: a second parent row P2. -/
def sampleP2 : Row := { name := "P2", kind := RowKind.parent }

/-- The store of Scenario A and D: [P1, c1, c2, N1]. -/
def sample_store : List Row := [sampleP1, sampleC1, sampleC2, sampleN1]

/-- A store in the shape of the lazy-loading test data (parents and
children only): [P1, c1, c2, P2]. -/
def sample_store2 : List Row := [sampleP1, sampleC1, sampleC2, sampleP2]

/-- A concrete `TableModel.table_data` row set in the shape of the
demo data (name, age, job, city, salary). -/
def sample_table : List (List DataCell) :=
  [[DataCell.s "Alice", DataCell.i 25, DataCell.s "dev", DataCell.s "BJ", DataCell.i 15000]]


/-! General lemmas about the embedded operations. -/

theorem mem_toggle_self (E : ExpansionSet) (p : String) :
    p ∈ toggle_expansion E p ↔ p ∉ E := by
  unfold toggle_expansion; by_cases h : p ∈ E <;> simp [h]

theorem mem_toggle_ne (E : ExpansionSet) (p q : String) (hq : q ≠ p) :
    q ∈ toggle_expansion E p ↔ q ∈ E := by
  unfold toggle_expansion
  by_cases h : p ∈ E <;> simp [h, Finset.mem_erase, Finset.mem_insert, hq]

theorem on_cell_clicked_col (all_data : List Row) (E : ExpansionSet) (row column : Nat)
    (hc : column ≠ 0) : on_cell_clicked all_data E row column = (all_data, E) := by
  unfold on_cell_clicked; rw [if_neg hc]

theorem on_cell_clicked_none (all_data : List Row) (E : ExpansionSet) (row : Nat)
    (hv : (visible_rows all_data E)[row]? = none) :
    on_cell_clicked all_data E row 0 = (all_data, E) := by
  unfold on_cell_clicked; simp [hv]

theorem on_cell_clicked_nonparent (all_data : List Row) (E : ExpansionSet) (row : Nat)
    (clicked : Row) (hv : (visible_rows all_data E)[row]? = some clicked)
    (hk : clicked.kind ≠ RowKind.parent) :
    on_cell_clicked all_data E row 0 = (all_data, E) := by
  unfold on_cell_clicked; simp [hv, hk]

theorem on_cell_clicked_parent (all_data : List Row) (E : ExpansionSet) (row : Nat)
    (clicked : Row) (hv : (visible_rows all_data E)[row]? = some clicked)
    (hk : clicked.kind = RowKind.parent) :
    on_cell_clicked all_data E row 0 = (all_data, toggle_expansion E clicked.name) := by
  unfold on_cell_clicked; simp [hv, hk]

theorem mem_insertAt {α : Type} (pos : Nat) (c x : α) (l : List α) :
    x ∈ insertAt pos c l ↔ x = c ∨ x ∈ l := by
  induction l generalizing pos with
  | nil => cases pos <;> simp [insertAt]
  | cons y ys ih =>
    cases pos with
    | zero => simp [insertAt]
    | succ n =>
      simp only [insertAt, List.mem_cons, ih]
      tauto

theorem find_parent_index_some (parent_name : String) (l : List Row) (i : Nat)
    (h : find_parent_index parent_name l = some i) :
    ∃ r ∈ l, r.kind = RowKind.parent ∧ r.name = parent_name := by
  induction l generalizing i with
  | nil => simp [find_parent_index] at h
  | cons item rest ih =>
    by_cases hc : item.kind = RowKind.parent ∧ item.name = parent_name
    · exact ⟨item, List.mem_cons_self _ _, hc⟩
    · simp only [find_parent_index, if_neg hc, Option.map_eq_some'] at h
      obtain ⟨j, hj, _⟩ := h
      obtain ⟨r, hr, hrp⟩ := ih j hj
      exact ⟨r, List.mem_cons_of_mem _ hr, hrp⟩

theorem add_child_item_found (s : StoreState) (parent_name : String) (parent_index : Nat)
    (hf : find_parent_index parent_name s.all_data = some parent_index) :
    ∃ (nc : Row) (idx : Nat),
      add_child_item s parent_name =
        { all_data := insertAt idx nc s.all_data,
          expanded_rows := insert parent_name s.expanded_rows } := by
  unfold add_child_item
  rw [hf]
  exact ⟨_, _, rfl⟩

theorem expanded_inv_step (s : StoreState) (op : StoreOp) (h : expanded_inv s) :
    expanded_inv (store_step s op) := by
  cases op with
  | click row column =>
    intro q hq
    simp only [store_step] at hq ⊢
    by_cases hc : column = 0
    · subst hc
      cases hv : (visible_rows s.all_data s.expanded_rows)[row]? with
      | none =>
        rw [on_cell_clicked_none _ _ _ hv] at hq ⊢
        exact h q hq
      | some clicked =>
        by_cases hk : clicked.kind = RowKind.parent
        · rw [on_cell_clicked_parent _ _ _ clicked hv hk] at hq ⊢
          by_cases hqc : q = clicked.name
          · subst hqc
            have hcm : clicked ∈ visible_rows s.all_data s.expanded_rows := by
              obtain ⟨hlt, hget⟩ := List.getElem?_eq_some_iff.mp hv
              rw [← hget]
              exact List.getElem_mem _
            exact ⟨clicked, (List.mem_filter.mp hcm).1, hk, rfl⟩
          · rw [mem_toggle_ne _ _ _ hqc] at hq
            exact h q hq
        · rw [on_cell_clicked_nonparent _ _ _ clicked hv hk] at hq ⊢
          exact h q hq
    · rw [on_cell_clicked_col _ _ _ _ hc] at hq ⊢
      exact h q hq
  | deleteParent p =>
    intro q hq
    simp only [store_step, delete_parent_item] at hq ⊢
    have hqe : q ∈ s.expanded_rows.erase p := hq
    have hqp : q ≠ p := (Finset.mem_erase.mp hqe).1
    obtain ⟨r, hr, hrk, hrn⟩ := h q (Finset.mem_erase.mp hqe).2
    refine ⟨r, ?_, hrk, hrn⟩
    refine List.mem_filter.mpr ⟨hr, ?_⟩
    have h1 : r.name ≠ p := by rw [hrn]; exact hqp
    have h2 : r.kind ≠ RowKind.child := by rw [hrk]; intro hx; cases hx
    simp [h1, h2]
  | addChild p =>
    intro q hq
    simp only [store_step] at hq ⊢
    cases hf : find_parent_index p s.all_data with
    | none =>
      unfold add_child_item at hq ⊢
      rw [hf] at hq ⊢
      exact h q hq
    | some parent_index =>
      obtain ⟨nc, idx, heq⟩ := add_child_item_found s p parent_index hf
      rw [heq] at hq ⊢
      simp only [Finset.mem_insert] at hq
      cases hq with
      | inl hqp =>
        subst hqp
        obtain ⟨r, hr, hrp⟩ := find_parent_index_some _ _ _ hf
        exact ⟨r, (mem_insertAt _ _ _ _).mpr (Or.inr hr), hrp⟩
      | inr hq2 =>
        obtain ⟨r, hr, hrp⟩ := h q hq2
        exact ⟨r, (mem_insertAt _ _ _ _).mpr (Or.inr hr), hrp⟩

theorem startsWithRows_append (bs t : List Row) : startsWithRows bs (bs ++ t) = true := by
  induction bs with
  | nil => rfl
  | cons b rest ih => simp [startsWithRows, ih]

theorem containsBlock_append (A block B : List Row) :
    containsBlock block (A ++ (block ++ B)) = true := by
  induction A with
  | nil =>
    cases block with
    | nil =>
      cases B with
      | nil => rfl
      | cons x xs => simp [containsBlock, startsWithRows]
    | cons b bs =>
      show (startsWithRows (b :: bs) ((b :: bs) ++ B) || containsBlock (b :: bs) (bs ++ B)) =
        true
      rw [startsWithRows_append]
      simp
  | cons a A ih => simp [containsBlock, ih]

theorem visible_rows_filter_top (all_data : List Row) (E : ExpansionSet) :
    (visible_rows all_data E).filter is_top_level = all_data.filter is_top_level := by
  unfold visible_rows
  rw [List.filter_filter]
  apply List.filter_congr
  intro a _
  cases h : is_top_level a <;> simp [row_visible, h]

theorem row_visible_child (E : ExpansionSet) (c : Row) (hk : c.kind = RowKind.child) :
    row_visible E c = decide (c.parent ∈ E) := by
  simp [row_visible, is_top_level, hk]

theorem row_visible_parent (E : ExpansionSet) (r : Row) (hk : r.kind = RowKind.parent) :
    row_visible E r = true := by
  simp [row_visible, is_top_level, hk]

theorem flatten_blocks_append (l1 l2 : List Block) :
    flatten_blocks (l1 ++ l2) = flatten_blocks l1 ++ flatten_blocks l2 := by
  induction l1 with
  | nil => rfl
  | cons b bs ih => simp [flatten_blocks, ih]

theorem head_mem_flatten_blocks {b : Block} {bs : List Block} (h : b ∈ bs) :
    b.head ∈ flatten_blocks bs := by
  induction bs with
  | nil => cases h
  | cons x xs ih =>
    cases h with
    | head => simp [flatten_blocks]
    | tail _ h2 => simp [flatten_blocks, ih h2]

theorem mem_flatten_blocks {r : Row} {bs : List Block} (h : r ∈ flatten_blocks bs) :
    ∃ b ∈ bs, r = b.head ∨ r ∈ b.children := by
  induction bs with
  | nil => cases h
  | cons x xs ih =>
    simp only [flatten_blocks, List.mem_cons, List.mem_append] at h
    rcases h with h1 | h2 | h3
    · exact ⟨x, List.mem_cons_self _ _, Or.inl h1⟩
    · exact ⟨x, List.mem_cons_self _ _, Or.inr h2⟩
    · obtain ⟨b, hb, hc⟩ := ih h3
      exact ⟨b, List.mem_cons_of_mem _ hb, hc⟩

theorem parent_split {blocks : List Block} (hwf : ∀ b ∈ blocks, block_wf b) {r : Row}
    (hr : r ∈ flatten_blocks blocks) (hk : r.kind = RowKind.parent) :
    ∃ bs1 b bs2, blocks = bs1 ++ b :: bs2 ∧ b.head = r ∧
      ∀ c ∈ b.children, c.kind = RowKind.child ∧ c.parent = r.name := by
  obtain ⟨b, hb, hcase⟩ := mem_flatten_blocks hr
  obtain ⟨bs1, bs2, hsplit⟩ := List.append_of_mem hb
  rcases hwf b hb with ⟨hbk, hbc⟩ | ⟨hbk, hbc⟩
  · rcases hcase with h1 | h2
    · exact ⟨bs1, b, bs2, hsplit, h1.symm, by rw [← h1] at hbc; exact hbc⟩
    · exact absurd hk (by rw [(hbc r h2).1]; intro hx; cases hx)
  · rcases hcase with h1 | h2
    · rw [h1] at hk; rw [hk] at hbk; cases hbk
    · rw [hbc] at h2; cases h2

theorem no_foreign_children {bs : List Block} (hwf : ∀ b ∈ bs, block_wf b) (p : String)
    (hnp : ∀ b ∈ bs, b.head.name ≠ p) :
    ∀ a ∈ flatten_blocks bs, ¬(a.kind = RowKind.child ∧ a.parent = p) := by
  intro a ha hc
  obtain ⟨b, hb, hcase⟩ := mem_flatten_blocks ha
  rcases hwf b hb with ⟨hbk, hbc⟩ | ⟨hbk, hbc⟩
  · rcases hcase with h1 | h2
    · rw [h1] at hc; rw [hbk] at hc; cases hc.1
    · exact hnp b hb (((hbc a h2).2).symm.trans hc.2)
  · rcases hcase with h1 | h2
    · rw [h1] at hc; rw [hbk] at hc; cases hc.1
    · rw [hbc] at h2; cases h2

theorem child_items_of_split (bs1 : List Block) (b : Block) (bs2 : List Block)
    (hwf : ∀ x ∈ bs1 ++ b :: bs2, block_wf x)
    (hnames : ((flatten_blocks (bs1 ++ b :: bs2)).map Row.name).Nodup)
    (hbc : ∀ c ∈ b.children, c.kind = RowKind.child ∧ c.parent = b.head.name)
    (hbk : b.head.kind = RowKind.parent) :
    child_items_of (flatten_blocks (bs1 ++ b :: bs2)) b.head.name = b.children := by
  have hfl : flatten_blocks (bs1 ++ b :: bs2) =
      flatten_blocks bs1 ++ (b.head :: (b.children ++ flatten_blocks bs2)) := by
    rw [flatten_blocks_append]; rfl
  rw [hfl] at hnames
  have hnames2 := hnames
  rw [List.map_append, List.nodup_append] at hnames2
  obtain ⟨hn1, hn2, hdisj⟩ := hnames2
  have hd1 : ∀ b2 ∈ bs1, b2.head.name ≠ b.head.name := by
    intro b2 hb2 heq
    apply hdisj (a := b2.head.name)
    · exact List.mem_map_of_mem _ (head_mem_flatten_blocks hb2)
    · rw [heq]; simp
  have hd2 : ∀ b2 ∈ bs2, b2.head.name ≠ b.head.name := by
    intro b2 hb2 heq
    simp only [List.map_cons, List.nodup_cons] at hn2
    apply hn2.1
    rw [← heq]
    rw [List.map_append, List.mem_append]
    right
    exact List.mem_map_of_mem _ (head_mem_flatten_blocks hb2)
  have hside1 : ∀ a ∈ flatten_blocks bs1,
      ¬(a.kind = RowKind.child ∧ a.parent = b.head.name) :=
    no_foreign_children (fun x hx => hwf x (List.mem_append_left _ hx)) _ hd1
  have hside2 : ∀ a ∈ flatten_blocks bs2,
      ¬(a.kind = RowKind.child ∧ a.parent = b.head.name) :=
    no_foreign_children
      (fun x hx => hwf x (List.mem_append_right _ (List.mem_cons_of_mem _ hx))) _ hd2
  unfold child_items_of
  rw [hfl, List.filter_append, List.filter_cons]
  have hhead : (decide (b.head.kind = RowKind.child) &&
      decide (b.head.parent = b.head.name)) = false := by
    simp [hbk]
  rw [hhead]
  have hf1 : (flatten_blocks bs1).filter (fun c => decide (c.kind = RowKind.child) &&
      decide (c.parent = b.head.name)) = [] := by
    rw [List.filter_eq_nil_iff]
    intro a ha
    have hs := hside1 a ha
    simp only [Bool.and_eq_true, decide_eq_true_eq]
    exact fun hc => hs hc
  have hf2 : (flatten_blocks bs2).filter (fun c => decide (c.kind = RowKind.child) &&
      decide (c.parent = b.head.name)) = [] := by
    rw [List.filter_eq_nil_iff]
    intro a ha
    have hs := hside2 a ha
    simp only [Bool.and_eq_true, decide_eq_true_eq]
    exact fun hc => hs hc
  have hfc : b.children.filter (fun c => decide (c.kind = RowKind.child) &&
      decide (c.parent = b.head.name)) = b.children := by
    rw [List.filter_eq_self]
    intro a ha
    simp only [Bool.and_eq_true, decide_eq_true_eq]
    exact hbc a ha
  rw [hf1, List.filter_append, hfc, hf2]
  simp

theorem gather_aux_append (all_data : List Row) (E : ExpansionSet) (l1 l2 : List Row) :
    refresh_visible_items_aux all_data E (l1 ++ l2) =
      refresh_visible_items_aux all_data E l1 ++ refresh_visible_items_aux all_data E l2 := by
  induction l1 with
  | nil => rfl
  | cons item rest ih =>
    simp only [List.cons_append, refresh_visible_items_aux]
    by_cases hk : item.kind = RowKind.parent
    · simp [hk, ih, List.append_assoc]
    · simp [hk, ih]

theorem gather_aux_congr (all_data : List Row) (E1 E2 : ExpansionSet) (l : List Row)
    (h : ∀ r ∈ l, r.kind = RowKind.parent → (r.name ∈ E1 ↔ r.name ∈ E2)) :
    refresh_visible_items_aux all_data E1 l = refresh_visible_items_aux all_data E2 l := by
  induction l with
  | nil => rfl
  | cons item rest ih =>
    simp only [refresh_visible_items_aux]
    have ih2 := ih (fun r hr => h r (List.mem_cons_of_mem _ hr))
    by_cases hk : item.kind = RowKind.parent
    · have hiff := h item (List.mem_cons_self _ _) hk
      have hdec : decide (item.name ∈ E1) = decide (item.name ∈ E2) := by
        simp [hiff]
      rw [hdec, ih2]
    · simp [hk, ih2]

theorem countP_child_items (all_data : List Row) (q p : String) :
    (child_items_of all_data q).countP (parent_named p) = 0 := by
  rw [List.countP_eq_zero]
  intro a ha
  have hk := (List.mem_filter.mp ha).2
  simp only [Bool.and_eq_true, decide_eq_true_eq] at hk
  simp only [parent_named, Bool.and_eq_true, decide_eq_true_eq]
  intro hc
  rw [hk.1] at hc
  cases hc.1

theorem countP_gather_aux (all_data : List Row) (E : ExpansionSet) (l : List Row)
    (p : String) :
    (refresh_visible_items_aux all_data E l).countP (parent_named p) =
      l.countP (parent_named p) := by
  induction l with
  | nil => rfl
  | cons item rest ih =>
    by_cases hk : item.kind = RowKind.parent
    · rw [show refresh_visible_items_aux all_data E (item :: rest) =
          item :: ((if decide (item.name ∈ E) = true then child_items_of all_data item.name
            else []) ++ refresh_visible_items_aux all_data E rest) from by
        simp [refresh_visible_items_aux, hk]]
      rw [List.countP_cons, List.countP_append, ih, List.countP_cons]
      have hblock : (if decide (item.name ∈ E) = true then child_items_of all_data item.name
          else []).countP (parent_named p) = 0 := by
        by_cases he : item.name ∈ E <;> simp [he, countP_child_items]
      rw [hblock]
      omega
    · rw [show refresh_visible_items_aux all_data E (item :: rest) =
          refresh_visible_items_aux all_data E rest from by
        simp [refresh_visible_items_aux, hk]]
      rw [ih, List.countP_cons]
      have hpn : parent_named p item = false := by
        simp [parent_named, hk]
      rw [hpn]
      rfl

theorem countP_parent_named_le_one (l : List Row) (p : String)
    (hnames : (l.map Row.name).Nodup) : l.countP (parent_named p) ≤ 1 := by
  induction l with
  | nil => simp
  | cons x xs ih =>
    simp only [List.map_cons, List.nodup_cons] at hnames
    rw [List.countP_cons]
    by_cases hx : parent_named p x = true
    · have hxn : x.name = p := by
        simp only [parent_named, Bool.and_eq_true, decide_eq_true_eq] at hx
        exact hx.2
      have hzero : xs.countP (parent_named p) = 0 := by
        rw [List.countP_eq_zero]
        intro y hy hpy
        simp only [parent_named, Bool.and_eq_true, decide_eq_true_eq] at hpy
        apply hnames.1
        rw [hxn, ← hpy.2]
        exact List.mem_map_of_mem _ hy
      rw [hzero, hx]
      simp
    · rw [Bool.not_eq_true] at hx
      rw [hx]
      have hle := ih hnames.2
      rw [show (if (false = true) then (1 : Nat) else 0) = 0 from rfl]
      omega

theorem countP_eq_one_split {α : Type} (l : List α) (pred : α → Bool)
    (h : l.countP pred = 1) :
    ∃ l1 x l2, l = l1 ++ x :: l2 ∧ pred x = true ∧
      l1.countP pred = 0 ∧ l2.countP pred = 0 := by
  induction l with
  | nil => simp at h
  | cons y ys ih =>
    rw [List.countP_cons] at h
    by_cases hpy : pred y = true
    · rw [hpy, show (if (true = true) then (1 : Nat) else 0) = 1 from rfl] at h
      have h0 : ys.countP pred = 0 := by omega
      exact ⟨[], y, ys, rfl, hpy, by simp, h0⟩
    · rw [Bool.not_eq_true] at hpy
      rw [hpy, show (if (false = true) then (1 : Nat) else 0) = 0 from rfl] at h
      have h1 : ys.countP pred = 1 := by omega
      obtain ⟨l1, x, l2, heq, hx, hc1, hc2⟩ := ih h1
      refine ⟨y :: l1, x, l2, by rw [heq, List.cons_append], hx, ?_, hc2⟩
      rw [List.countP_cons, hpy, show (if (false = true) then (1 : Nat) else 0) = 0 from rfl,
        hc1]

theorem index_of_countP_zero {α : Type} (A B : List α) (x y : α) (pred : α → Bool)
    (i : Nat) (hA : A.countP pred = 0) (hB : B.countP pred = 0)
    (hi : (A ++ x :: B)[i]? = some y) (hy : pred y = true) : i = A.length := by
  rcases Nat.lt_trichotomy i A.length with hlt | heq | hgt
  · exfalso
    rw [List.getElem?_append_left hlt] at hi
    have hmem : y ∈ A := by
      obtain ⟨hw, hg⟩ := List.getElem?_eq_some_iff.mp hi
      rw [← hg]; exact List.getElem_mem _
    exact List.countP_eq_zero.mp hA y hmem hy
  · exact heq
  · exfalso
    rw [List.getElem?_append_right (by omega)] at hi
    have hk : i - A.length = (i - A.length - 1) + 1 := by omega
    rw [hk, List.getElem?_cons_succ] at hi
    have hmem : y ∈ B := by
      obtain ⟨hw, hg⟩ := List.getElem?_eq_some_iff.mp hi
      rw [← hg]; exact List.getElem_mem _
    exact List.countP_eq_zero.mp hB y hmem hy

theorem insertAt_length_append {α : Type} (X : List α) (c : α) (B : List α) :
    insertAt X.length c (X ++ B) = X ++ c :: B := by
  induction X with
  | nil => rfl
  | cons x xs ih => simp [insertAt, List.length_cons, ih]

theorem insert_child_rows_append (C X B : List Row) :
    insert_child_rows X.length C (X ++ B) = X ++ (C ++ B) := by
  induction C generalizing X with
  | nil => simp [insert_child_rows]
  | cons c cs ih =>
    simp only [insert_child_rows]
    rw [insertAt_length_append]
    have hx : X.length + 1 = (X ++ [c]).length := by simp
    have hshape : X ++ c :: B = (X ++ [c]) ++ B := by simp
    rw [hx, hshape, ih]
    simp

theorem removeAt_length_append {α : Type} (X : List α) (y : α) (B : List α) :
    removeAt X.length (X ++ y :: B) = X ++ B := by
  induction X with
  | nil => rfl
  | cons x xs ih => simp [removeAt, List.length_cons, ih]

theorem remove_child_rows_append (C X B : List Row) :
    remove_child_rows X.length C.length (X ++ (C ++ B)) = X ++ B := by
  induction C generalizing B with
  | nil => simp [remove_child_rows]
  | cons c cs ih =>
    simp only [List.length_cons, remove_child_rows]
    rw [if_pos (by simp only [List.length_append, List.length_cons]; omega)]
    have hrm : removeAt X.length (X ++ (c :: cs ++ B)) = X ++ (cs ++ B) :=
      removeAt_length_append X c (cs ++ B)
    rw [hrm, ih]

theorem gather_aux_single_parent (all_data : List Row) (E : ExpansionSet) (x : Row)
    (hk : x.kind = RowKind.parent) :
    refresh_visible_items_aux all_data E [x] =
      x :: (if x.name ∈ E then child_items_of all_data x.name else []) := by
  by_cases he : x.name ∈ E <;> simp [refresh_visible_items_aux, hk, he]

theorem gather_split (all_data : List Row) (E : ExpansionSet) (p : String)
    (l1 : List Row) (x : Row) (l2 : List Row)
    (hxk : x.kind = RowKind.parent) (hxn : x.name = p) :
    refresh_visible_items_aux all_data E (l1 ++ x :: l2) =
      refresh_visible_items_aux all_data E l1 ++
        (x :: ((if p ∈ E then child_items_of all_data p else []) ++
          refresh_visible_items_aux all_data E l2)) := by
  rw [show l1 ++ x :: l2 = l1 ++ ([x] ++ l2) from by simp, gather_aux_append,
    gather_aux_append, gather_aux_single_parent all_data E x hxk, hxn]
  simp [List.append_assoc]

theorem shift_probe_ne (position k : Nat) (parent_idx : Int) (h : (k : Int) ≠ parent_idx) :
    (shiftIdx position k : Int) ≠
      (if parent_idx ≥ (position : Int) then parent_idx + 1 else parent_idx) := by
  unfold shiftIdx
  split_ifs with h1 h2 h3 <;> push_cast <;> omega

/-! Claim theorems, counterexamples and witnesses. -/

/-- C1 (counterexample): the claim quantifies over every store
satisfying only the parent-reference invariant.  The store
[c1, P1] — child stored before its parent — satisfies that invariant,
yet the projection of `refresh_table` is [c1, P1]: the expanded
parent's children are not a contiguous block immediately following the
parent, so the claimed shape fails. -/
theorem c1_projection_shape_cex :
    parent_ref_invariant [sampleC1, sampleP1] ∧
    ¬ projection_ok [sampleC1, sampleP1] {"P1"} := by
  constructor
  · decide
  · decide

/-- C1 (amended): for every store with distinct row names that
decomposes into blocks — each block a normal row or a parent row
immediately followed by exactly its child rows — and every expansion
set, the projection contains every parent and normal row exactly once
in stored order, each child row exactly once iff its parent is
expanded, and each expanded parent's children as a contiguous block
immediately following that parent. -/
theorem c1_projection_shape (blocks : List Block) (E : ExpansionSet)
    (hwf : ∀ b ∈ blocks, block_wf b)
    (hnames : ((flatten_blocks blocks).map Row.name).Nodup) :
    projection_ok (flatten_blocks blocks) E := by
  have hnodup : (flatten_blocks blocks).Nodup := hnames.of_map _
  refine ⟨visible_rows_filter_top _ _, ?_, ?_⟩
  · intro c hc hck
    by_cases hpe : c.parent ∈ E
    · rw [if_pos hpe]
      unfold visible_rows
      rw [List.count_filter (by rw [row_visible_child E c hck]; simp [hpe])]
      exact List.count_eq_one_of_mem hnodup hc
    · rw [if_neg hpe]
      apply List.count_eq_zero_of_not_mem
      intro hmem
      have hrv := (List.mem_filter.mp hmem).2
      rw [row_visible_child E c hck] at hrv
      simp [hpe] at hrv
  · intro r hr hk hE
    obtain ⟨bs1, b, bs2, hsplit, hbh, hbc⟩ := parent_split hwf hr hk
    subst hsplit
    have hbk : b.head.kind = RowKind.parent := by rw [hbh]; exact hk
    have hbc2 : ∀ c ∈ b.children, c.kind = RowKind.child ∧ c.parent = b.head.name := by
      rw [hbh]; exact hbc
    have hchild := child_items_of_split bs1 b bs2 hwf hnames hbc2 hbk
    rw [← hbh] at hE ⊢
    rw [hchild]
    have hfl : flatten_blocks (bs1 ++ b :: bs2) =
        flatten_blocks bs1 ++ (b.head :: (b.children ++ flatten_blocks bs2)) := by
      rw [flatten_blocks_append]; rfl
    unfold visible_rows
    rw [hfl, List.filter_append, List.filter_cons]
    rw [row_visible_parent E b.head hbk]
    have hfc : b.children.filter (row_visible E) = b.children := by
      rw [List.filter_eq_self]
      intro a ha
      rw [row_visible_child E a (hbc2 a ha).1, (hbc2 a ha).2]
      simp [hE]
    rw [if_pos rfl, List.filter_append, hfc]
    exact containsBlock_append _ _ _

/-- C1 (witness): the Scenario A store [P1, c1, c2, N1] as blocks,
with P1 expanded. -/
theorem c1_projection_shape_witness :
    (∀ b ∈ [Block.mk sampleP1 [sampleC1, sampleC2], Block.mk sampleN1 []], block_wf b) ∧
    ((flatten_blocks [Block.mk sampleP1 [sampleC1, sampleC2],
        Block.mk sampleN1 []]).map Row.name).Nodup ∧
    projection_ok
      (flatten_blocks [Block.mk sampleP1 [sampleC1, sampleC2], Block.mk sampleN1 []])
      {"P1"} :=
  ⟨by decide, by decide, c1_projection_shape _ _ (by decide) (by decide)⟩

/-- C2: for every store with distinct row names, toggling the parent
shown at display position `parent_row` and reconciling incrementally —
inserting or removing that parent's child block at `parent_row + 1` —
produces exactly the visible-row sequence that a from-scratch
projection of the post-toggle state produces. -/
theorem c2_incremental_matches_full (all_data : List Row) (E : ExpansionSet) (p : String)
    (parent_row : Nat) (clicked : Row)
    (hnames : (all_data.map Row.name).Nodup)
    (hv : (refresh_visible_items all_data E)[parent_row]? = some clicked)
    (hk : clicked.kind = RowKind.parent) (hn : clicked.name = p) :
    update_table_incrementally all_data (toggle_expansion E p) p parent_row
        (refresh_visible_items all_data E) =
      refresh_visible_items all_data (toggle_expansion E p) := by
  have hpc : parent_named p clicked = true := by simp [parent_named, hk, hn]
  have hmem : clicked ∈ refresh_visible_items all_data E := by
    obtain ⟨hw, hg⟩ := List.getElem?_eq_some_iff.mp hv
    rw [← hg]; exact List.getElem_mem _
  have hpos : 0 < (refresh_visible_items all_data E).countP (parent_named p) :=
    List.countP_pos_iff.mpr ⟨clicked, hmem, hpc⟩
  have hcnt_proj : (refresh_visible_items all_data E).countP (parent_named p) =
      all_data.countP (parent_named p) := countP_gather_aux all_data E all_data p
  have hle := countP_parent_named_le_one all_data p hnames
  have hone : all_data.countP (parent_named p) = 1 := by omega
  obtain ⟨l1, x, l2, hsplit, hx, hc1, hc2⟩ :=
    countP_eq_one_split all_data (parent_named p) hone
  subst hsplit
  have hxk : x.kind = RowKind.parent := by
    simp only [parent_named, Bool.and_eq_true, decide_eq_true_eq] at hx; exact hx.1
  have hxn : x.name = p := by
    simp only [parent_named, Bool.and_eq_true, decide_eq_true_eq] at hx; exact hx.2
  have htog : ∀ l : List Row, l.countP (parent_named p) = 0 →
      refresh_visible_items_aux (l1 ++ x :: l2) (toggle_expansion E p) l =
        refresh_visible_items_aux (l1 ++ x :: l2) E l := by
    intro l hcz
    apply gather_aux_congr
    intro r hr hrk
    have hrne : r.name ≠ p := by
      intro hre
      exact List.countP_eq_zero.mp hcz r hr (by simp [parent_named, hrk, hre])
    exact mem_toggle_ne E p r.name hrne
  have h0 : refresh_visible_items (l1 ++ x :: l2) E =
      refresh_visible_items_aux (l1 ++ x :: l2) E (l1 ++ x :: l2) := rfl
  have h0t : refresh_visible_items (l1 ++ x :: l2) (toggle_expansion E p) =
      refresh_visible_items_aux (l1 ++ x :: l2) (toggle_expansion E p)
        (l1 ++ x :: l2) := rfl
  have hproj := gather_split (l1 ++ x :: l2) E p l1 x l2 hxk hxn
  have hprojt := gather_split (l1 ++ x :: l2) (toggle_expansion E p) p l1 x l2 hxk hxn
  have hcA : (refresh_visible_items_aux (l1 ++ x :: l2) E l1).countP
      (parent_named p) = 0 := by
    rw [countP_gather_aux]; exact hc1
  have hcB : (refresh_visible_items_aux (l1 ++ x :: l2) E l2).countP
      (parent_named p) = 0 := by
    rw [countP_gather_aux]; exact hc2
  have hcIf : ((if p ∈ E then child_items_of (l1 ++ x :: l2) p else []) ++
      refresh_visible_items_aux (l1 ++ x :: l2) E l2).countP (parent_named p) = 0 := by
    rw [List.countP_append, hcB]
    by_cases he : p ∈ E <;> simp [he, countP_child_items]
  have hrow : parent_row = (refresh_visible_items_aux (l1 ++ x :: l2) E l1).length := by
    apply index_of_countP_zero _ _ x clicked (parent_named p) parent_row hcA hcIf ?_ hpc
    rw [h0, hproj] at hv
    exact hv
  by_cases hpe : p ∈ E
  · have hnot : p ∉ toggle_expansion E p := by
      unfold toggle_expansion; rw [if_pos hpe]; simp
    unfold update_table_incrementally
    rw [if_neg hnot, h0, hproj, if_pos hpe, hrow]
    have hshape : refresh_visible_items_aux (l1 ++ x :: l2) E l1 ++
        (x :: (child_items_of (l1 ++ x :: l2) p ++
          refresh_visible_items_aux (l1 ++ x :: l2) E l2)) =
        (refresh_visible_items_aux (l1 ++ x :: l2) E l1 ++ [x]) ++
          (child_items_of (l1 ++ x :: l2) p ++
            refresh_visible_items_aux (l1 ++ x :: l2) E l2) := by simp
    have hlen : (refresh_visible_items_aux (l1 ++ x :: l2) E l1).length + 1 =
        (refresh_visible_items_aux (l1 ++ x :: l2) E l1 ++ [x]).length := by simp
    rw [hshape, hlen, remove_child_rows_append, h0t, hprojt, if_neg hnot,
      htog l1 hc1, htog l2 hc2]
    simp
  · have hyes : p ∈ toggle_expansion E p := by
      unfold toggle_expansion; rw [if_neg hpe]; simp
    unfold update_table_incrementally
    rw [if_pos hyes, h0, hproj, if_neg hpe, hrow]
    have hshape : refresh_visible_items_aux (l1 ++ x :: l2) E l1 ++
        (x :: ([] ++ refresh_visible_items_aux (l1 ++ x :: l2) E l2)) =
        (refresh_visible_items_aux (l1 ++ x :: l2) E l1 ++ [x]) ++
          refresh_visible_items_aux (l1 ++ x :: l2) E l2 := by simp
    have hlen : (refresh_visible_items_aux (l1 ++ x :: l2) E l1).length + 1 =
        (refresh_visible_items_aux (l1 ++ x :: l2) E l1 ++ [x]).length := by simp
    rw [hshape, hlen, insert_child_rows_append, h0t, hprojt, if_pos hyes,
      htog l1 hc1, htog l2 hc2]
    simp

/-- C2 (witness): expanding P1 at display position 0 of the store
[P1, c1, c2, P2] with nothing expanded. -/
theorem c2_incremental_matches_full_witness :
    (sample_store2.map Row.name).Nodup ∧
    (refresh_visible_items sample_store2 ∅)[0]? = some sampleP1 ∧
    update_table_incrementally sample_store2 (toggle_expansion ∅ "P1") "P1" 0
        (refresh_visible_items sample_store2 ∅) =
      refresh_visible_items sample_store2 (toggle_expansion ∅ "P1") :=
  ⟨by decide, by decide,
    c2_incremental_matches_full sample_store2 ∅ "P1" 0 sampleP1
      (by decide) (by decide) (by decide) (by decide)⟩

/-- C3: after a toggle at display position `p`, the cache cleanup keeps
an entry iff its row key is below `p + 1`, unchanged; every entry keyed
at or beyond `p + 1` is discarded. -/
theorem c3_cache_invalidation {W : Type} (widget_cache : List (Nat × W)) (p r : Nat) :
    cacheLookup r (clear_cache_after_row widget_cache p) =
      if r < p + 1 then cacheLookup r widget_cache else none := by
  induction widget_cache with
  | nil => simp [clear_cache_after_row, cacheLookup]
  | cons e rest ih =>
    by_cases hk : e.1 > p
    · have hdrop : clear_cache_after_row (e :: rest) p = clear_cache_after_row rest p := by
        simp [clear_cache_after_row, List.filter_cons, hk]
      rw [hdrop, ih]
      by_cases hr : r < p + 1
      · rw [if_pos hr, if_pos hr, cacheLookup, if_neg (by omega)]
      · rw [if_neg hr, if_neg hr]
    · have hkeep : clear_cache_after_row (e :: rest) p =
          e :: clear_cache_after_row rest p := by
        simp [clear_cache_after_row, List.filter_cons, hk]
      rw [hkeep, cacheLookup]
      by_cases he : e.1 = r
      · rw [if_pos he]
        have hr : r < p + 1 := by omega
        rw [if_pos hr, cacheLookup, if_pos he]
      · rw [if_neg he, ih]
        by_cases hr : r < p + 1
        · rw [if_pos hr, if_pos hr, cacheLookup, if_neg he]
        · rw [if_neg hr, if_neg hr]

/-- C4: submitting a non-numeric text to a numeric column (age is 1,
salary is 4) makes `setData` fail and leaves the table data unchanged. -/
theorem c4_type_mismatch_rejects (table_data : List (List DataCell)) (row col : Nat)
    (value : String) (hcol : col = 1 ∨ col = 4) (hval : pyInt? value = none) :
    setData table_data row col value = (false, table_data) := by
  unfold setData
  by_cases h : row < table_data.length ∧ col < 5
  · rw [if_pos h, if_pos hcol, hval]
  · rw [if_neg h]

/-- C4 (witness): editing the numeric column 1 with the text "abc". -/
theorem c4_type_mismatch_rejects_witness :
    ((1 : Nat) = 1 ∨ (1 : Nat) = 4) ∧ pyInt? "abc" = none ∧
    setData sample_table 0 1 "abc" = (false, sample_table) :=
  ⟨Or.inl rfl, by decide,
    c4_type_mismatch_rejects sample_table 0 1 "abc" (Or.inl rfl) (by decide)⟩

/-- C5 (counterexample): the claim says inserting a child whose parent
reference does not exist fails and leaves the store unchanged; the
code inserts the row anyway.  Inserting a child with `parent_idx = 5`
into a one-row table changes the row list. -/
theorem c5_insert_missing_parent_cex :
    (insert_row_at
        { rows := [Row3.mk "P" "t" ""], parent_rows := [0], child_rows := [(0, [])] }
        1 "c" "t" "d" false 5).rows ≠ [Row3.mk "P" "t" ""] := by
  decide

/-- C5 (amended): inserting a child row whose `parent_idx` matches no
registered parent still inserts the row at the given position and
shifts the recorded indices, but reports no error and registers no
child linkage: the child-rows mapping is unchanged except for the
index shift. -/
theorem c5_insert_missing_parent (s : TreeTableState) (position : Nat)
    (name type_val desc : String) (parent_idx : Int)
    (hmiss : ∀ e ∈ s.child_rows, (e.1 : Int) ≠ parent_idx) :
    insert_row_at s position name type_val desc false parent_idx =
      { rows := insertAt position (Row3.mk name type_val desc) s.rows,
        parent_rows := s.parent_rows.map (shiftIdx position),
        child_rows := s.child_rows.map (fun e =>
          (shiftIdx position e.1, e.2.map (shiftIdx position))) } := by
  unfold insert_row_at update_indices_after_insert
  simp only [Bool.false_eq_true, if_false]
  by_cases hpe : parent_idx = -1
  · simp [hpe]
  · rw [if_pos hpe]
    congr 1
    rw [List.map_map]
    rw [List.map_congr_left]
    intro e he
    have hne := shift_probe_ne position e.1 parent_idx (hmiss e he)
    simp only [Function.comp]
    rw [if_neg hne]

/-- C5 (witness): inserting a child with `parent_idx = 5` into a table
whose only registered parent is row 0. -/
theorem c5_insert_missing_parent_witness :
    (∀ e ∈ [((0 : Nat), ([] : List Nat))], ((e.1 : Nat) : Int) ≠ (5 : Int)) ∧
    insert_row_at
        { rows := [Row3.mk "P" "t" ""], parent_rows := [0], child_rows := [(0, [])] }
        1 "c" "t" "d" false 5 =
      { rows := insertAt 1 (Row3.mk "c" "t" "d") [Row3.mk "P" "t" ""],
        parent_rows := [(0 : Nat)].map (shiftIdx 1),
        child_rows := [((0 : Nat), ([] : List Nat))].map (fun e =>
          (shiftIdx 1 e.1, e.2.map (shiftIdx 1))) } :=
  ⟨by decide, c5_insert_missing_parent _ 1 "c" "t" "d" 5 (by decide)⟩

/-- C6: deleting a parent removes its record and every child
referencing it, drops its name from the expansion set, leaves every
other record and expansion entry in place, and the subsequent
projection contains only surviving records. -/
theorem c6_delete_parent_cascades (all_data : List Row) (E : ExpansionSet) (p : String)
    (pr : Row) (hpr : pr ∈ all_data) (hkind : pr.kind = RowKind.parent)
    (hname : pr.name = p) :
    pr ∉ (delete_parent_item all_data E p).1 ∧
    (∀ c ∈ all_data, c.kind = RowKind.child → c.parent = p →
      c ∉ (delete_parent_item all_data E p).1) ∧
    (∀ x ∈ all_data, x.name ≠ p → ¬(x.kind = RowKind.child ∧ x.parent = p) →
      x ∈ (delete_parent_item all_data E p).1) ∧
    p ∉ (delete_parent_item all_data E p).2 ∧
    (∀ q, q ≠ p → (q ∈ (delete_parent_item all_data E p).2 ↔ q ∈ E)) ∧
    (∀ x ∈ visible_rows (delete_parent_item all_data E p).1
        (delete_parent_item all_data E p).2,
      x ∈ (delete_parent_item all_data E p).1) := by
  unfold delete_parent_item
  refine ⟨?_, ?_, ?_, ?_, ?_, ?_⟩
  · intro hmem
    have hf := (List.mem_filter.mp hmem).2
    simp [hname] at hf
  · intro c hc hck hcp hmem
    have hf := (List.mem_filter.mp hmem).2
    simp [hck, hcp] at hf
  · intro x hx hxn hxc
    refine List.mem_filter.mpr ⟨hx, ?_⟩
    simp only [Bool.not_eq_eq_eq_not, Bool.not_true, Bool.or_eq_false_iff]
    constructor
    · simpa using hxn
    · by_cases hk : x.kind = RowKind.child
      · have hxp : x.parent ≠ p := fun hp => hxc ⟨hk, hp⟩
        simp [hxp]
      · simp [hk]
  · simp
  · intro q hq; simp [Finset.mem_erase, hq]
  · intro x hx
    exact (List.mem_filter.mp hx).1

/-- C6 (witness): Scenario D — deleting the expanded parent P1 from
[P1, c1, c2, N1]; the subsequent projection is [N1]. -/
theorem c6_delete_parent_cascades_witness :
    sampleP1 ∈ sample_store ∧ sampleP1.kind = RowKind.parent ∧ sampleP1.name = "P1" ∧
    "P1" ∉ (delete_parent_item sample_store {"P1"} "P1").2 ∧
    visible_rows (delete_parent_item sample_store {"P1"} "P1").1
        (delete_parent_item sample_store {"P1"} "P1").2 = [sampleN1] :=
  ⟨by decide, rfl, rfl,
    (c6_delete_parent_cascades sample_store {"P1"} "P1" sampleP1
        (by decide) rfl rfl).2.2.2.1,
    by decide⟩

/-- C7: a cell click never touches the row store; a click that does not
land on a parent row in column 0 (a child row, a normal row, or an
out-of-range row) leaves the expansion set and the visible sequence
unchanged, and a column-0 click on a parent row flips exactly that
parent's membership in the expansion set. -/
theorem c7_toggle_non_parent_noop (all_data : List Row) (E : ExpansionSet)
    (row column : Nat) :
    (on_cell_clicked all_data E row column).1 = all_data ∧
    ((∀ clicked ∈ (visible_rows all_data E)[row]?, clicked.kind ≠ RowKind.parent) →
      (on_cell_clicked all_data E row column).2 = E ∧
      visible_rows (on_cell_clicked all_data E row column).1
          (on_cell_clicked all_data E row column).2 = visible_rows all_data E) ∧
    (column ≠ 0 → (on_cell_clicked all_data E row column).2 = E) ∧
    (∀ clicked ∈ (visible_rows all_data E)[row]?,
      clicked.kind = RowKind.parent → column = 0 →
        ((clicked.name ∈ (on_cell_clicked all_data E row column).2 ↔
            clicked.name ∉ E) ∧
         ∀ q, q ≠ clicked.name →
           (q ∈ (on_cell_clicked all_data E row column).2 ↔ q ∈ E))) := by
  by_cases hc : column = 0
  · subst hc
    cases hv : (visible_rows all_data E)[row]? with
    | none =>
      rw [on_cell_clicked_none all_data E row hv]
      refine ⟨rfl, fun _ => ⟨rfl, rfl⟩, fun _ => rfl, ?_⟩
      intro c hm
      cases hm
    | some clicked =>
      by_cases hk : clicked.kind = RowKind.parent
      · rw [on_cell_clicked_parent all_data E row clicked hv hk]
        refine ⟨rfl, ?_, fun h0 => absurd rfl h0, ?_⟩
        · intro hno
          exact absurd hk (hno clicked rfl)
        · intro c hm hkc _
          simp only [Option.mem_def, Option.some.injEq] at hm
          subst hm
          exact ⟨mem_toggle_self E clicked.name,
            fun q hq => mem_toggle_ne E clicked.name q hq⟩
      · rw [on_cell_clicked_nonparent all_data E row clicked hv hk]
        refine ⟨rfl, fun _ => ⟨rfl, rfl⟩, fun h0 => absurd rfl h0, ?_⟩
        intro c hm hkc _
        simp only [Option.mem_def, Option.some.injEq] at hm
        subst hm
        exact absurd hkc hk
  · rw [on_cell_clicked_col all_data E row column hc]
    exact ⟨rfl, fun _ => ⟨rfl, rfl⟩, fun _ => rfl, fun c hm hkc h0 => absurd h0 hc⟩

/-- C7 (witness): with store [P1, c1] and P1 expanded, clicking the
child at display row 1 leaves the expansion set unchanged, while
clicking P1 at display row 0 removes it from the set. -/
theorem c7_toggle_non_parent_noop_witness :
    (on_cell_clicked [sampleP1, sampleC1] {"P1"} 1 0).2 = {"P1"} ∧
    ("P1" ∈ (on_cell_clicked [sampleP1, sampleC1] {"P1"} 0 0).2 ↔
      "P1" ∉ ({"P1"} : Finset String)) := by
  constructor
  · exact ((c7_toggle_non_parent_noop [sampleP1, sampleC1] {"P1"} 1 0).2.1
      (by decide)).1
  · exact ((c7_toggle_non_parent_noop [sampleP1, sampleC1] {"P1"} 0 0).2.2.2 sampleP1
      (by decide) rfl rfl).1

/-- C8: promoting a row twice equals promoting it once — the second
promotion finds the row recorded in `widgets_created` (or out of
range) and changes nothing. -/
theorem c8_promotion_idempotent (s : LazyTableState) (row : Nat) :
    create_full_widgets_for_row (create_full_widgets_for_row s row) row =
      create_full_widgets_for_row s row := by
  unfold create_full_widgets_for_row
  by_cases h : row ≥ s.visible_items.length ∨ row ≥ s.row_count ∨ row ∈ s.widgets_created
  · simp [h]
  · simp [h]

/-- C9: after any sequence of cell-click toggles, cascade parent
deletions and add-child operations, every name in the expanded set
names a parent row present in the store. -/
theorem c9_expanded_names_invariant (s : StoreState) (ops : List StoreOp)
    (h : expanded_inv s) : expanded_inv (run_ops s ops) := by
  induction ops generalizing s with
  | nil => exact h
  | cons op rest ih => exact ih _ (expanded_inv_step s op h)

/-- C9 (witness): a click, an add-child and a cascade deletion starting
from the Scenario A store with nothing expanded. -/
theorem c9_expanded_names_invariant_witness :
    expanded_inv { all_data := sample_store, expanded_rows := ∅ } ∧
    expanded_inv (run_ops { all_data := sample_store, expanded_rows := ∅ }
      [StoreOp.click 0 0, StoreOp.addChild "P1", StoreOp.deleteParent "P1"]) :=
  ⟨by decide,
    c9_expanded_names_invariant { all_data := sample_store, expanded_rows := ∅ }
      [StoreOp.click 0 0, StoreOp.addChild "P1", StoreOp.deleteParent "P1"] (by decide)⟩

/-- C10: every edit callback invoked with a row index at or beyond the
number of visible items is a silent no-op and modifies no row data. -/
theorem c10_out_of_range_edit_noop (visible_items : List Row) (row column : Nat)
    (text : String) (state : Int) (h : row ≥ visible_items.length) :
    on_line_edit_changed visible_items row column text = visible_items ∧
    on_checkbox_changed visible_items row column state = visible_items ∧
    on_combo_changed visible_items row column text = visible_items := by
  refine ⟨?_, ?_, ?_⟩
  · unfold on_line_edit_changed; rw [dif_neg (by omega)]
  · unfold on_checkbox_changed; rw [dif_neg (by omega)]
  · unfold on_combo_changed; rw [dif_neg (by omega)]

/-- C10 (witness): row 5 of a one-row visible list. -/
theorem c10_out_of_range_edit_noop_witness :
    (5 : Nat) ≥ ([sampleP1] : List Row).length ∧
    on_line_edit_changed [sampleP1] 5 1 "zz" = [sampleP1] ∧
    on_checkbox_changed [sampleP1] 5 1 1 = [sampleP1] ∧
    on_combo_changed [sampleP1] 5 1 "zz" = [sampleP1] :=
  ⟨by decide,
    (c10_out_of_range_edit_noop [sampleP1] 5 1 "zz" 1 (by decide)).1,
    (c10_out_of_range_edit_noop [sampleP1] 5 1 "zz" 1 (by decide)).2.1,
    (c10_out_of_range_edit_noop [sampleP1] 5 1 "zz" 1 (by decide)).2.2⟩


end Demo
